import Mathlib

/-!
Verification of the inventory-tracked apply/prune/delete reconciler of
`cli-experimental` against its natural-language specification.

The repository's sources under `src/` contain the ConfigProvider layer
(`resourceconfig`, `wirek8s`) and the tests of the reconciler
(`status_test.go`, `TestCmd`, `TestCmdWithCRDs`, `TestCmdWithEmptyInput`),
but not the reconciler implementation itself (the `Cmd` with
`Apply`/`Prune`/`Delete`, the inventory codec, and the Applier's retry
loop).  Those parts are therefore modelled from the spec, as marked on
each definition; the ConfigProvider layer is embedded directly from the
Go source.
-/

/-! ## Resource references and the inventory codec -/

/-- A `ResourceReference`: the immutable {group, version, kind, namespace,
name} tuple identifying a live object (spec section 3).  `ns` stands for the
namespace field. -/
structure ResourceReference where
  group : String
  version : String
  kind : String
  ns : String
  name : String
deriving DecidableEq, Repr

/-- Splits a list of characters on a separator character; the separator is
dropped and the (possibly empty) fragments between separators are returned.
Helper used to model key parsing. -/
def splitOnChar (sep : Char) : List Char → List (List Char)
  | [] => [[]]
  | c :: cs =>
    let r := splitOnChar sep cs
    if c = sep then [] :: r else (c :: r.headD []) :: r.tail

/-- Modelled from the spec: the group segment of the canonical key produced
by the inventory codec (`Key`), which is not under `src/`.  The default/core
group (empty string) is rendered as the placeholder segment. -/
def groupSegment (r : ResourceReference) : String :=
  if r.group = "" then "~G" else r.group

/-- Modelled from the spec: the canonical serialization key
`group_version_kind|namespace|name` with the core group rendered as the
placeholder, matching the keys observed in the tests
(`~G_v1_ConfigMap|default|cm1`). -/
def key (r : ResourceReference) : String :=
  groupSegment r ++ "_" ++ r.version ++ "_" ++ r.kind ++ "|" ++ r.ns ++ "|" ++ r.name

/-- Modelled from the spec: parsing one canonical key back into a
`ResourceReference`; `none` on malformed keys (DecodeError). -/
def decodeKey (s : String) : Option ResourceReference :=
  match splitOnChar '|' s.data with
  | [gvk, nsPart, namePart] =>
    match splitOnChar '_' gvk with
    | [gPart, vPart, kPart] =>
      let g := String.mk gPart
      some { group := if g = "~G" then "" else g
             version := String.mk vPart
             kind := String.mk kPart
             ns := String.mk nsPart
             name := String.mk namePart }
    | _ => none
  | _ => none

/-- Modelled from the spec: the inventory annotation document
`{"current": {key: null, ...}}` represented by the list of its keys
(the JSON wrapper carries no further information).  `Encode` maps an
InventorySet, represented by the list of its members, to the key list. -/
def encodeDoc (s : List ResourceReference) : List String :=
  s.map key

/-- Modelled from the spec: `Decode` of the inventory annotation document,
recovering the InventorySet from the keys; fails on any malformed key. -/
def decodeDoc (keys : List String) : Option (List ResourceReference) :=
  keys.mapM decodeKey

/-- Well-formedness of a reference's fields with respect to the codec's
separator characters: no field contains the `|` separator, the
group/version/kind fields contain no `_` separator, and the group is not
the literal placeholder.  Every legal Kubernetes group, version, kind,
namespace and name satisfies this. -/
def wfRef (r : ResourceReference) : Prop :=
  ('|' ∉ r.group.data) ∧ ('_' ∉ r.group.data) ∧
  ('|' ∉ r.version.data) ∧ ('_' ∉ r.version.data) ∧
  ('|' ∉ r.kind.data) ∧ ('_' ∉ r.kind.data) ∧
  ('|' ∉ r.ns.data) ∧ ('|' ∉ r.name.data) ∧
  r.group ≠ "~G"

instance (r : ResourceReference) : Decidable (wfRef r) := by
  unfold wfRef; infer_instance

theorem splitOnChar_ne_nil (sep : Char) (l : List Char) : splitOnChar sep l ≠ [] := by
  cases l with
  | nil => simp [splitOnChar]
  | cons c cs => rw [splitOnChar]; split <;> simp

theorem splitOnChar_no_sep (sep : Char) (l : List Char) (h : sep ∉ l) :
    splitOnChar sep l = [l] := by
  induction l with
  | nil => rfl
  | cons c cs ih =>
    simp only [List.mem_cons, not_or] at h
    rw [splitOnChar, ih h.2]
    have hcs : ¬ c = sep := fun e => h.1 e.symm
    simp [hcs]

theorem splitOnChar_append (sep : Char) (a b : List Char) (h : sep ∉ a) :
    splitOnChar sep (a ++ sep :: b) = a :: splitOnChar sep b := by
  induction a with
  | nil => rw [List.nil_append, splitOnChar]; simp
  | cons c cs ih =>
    simp only [List.mem_cons, not_or] at h
    rw [List.cons_append, splitOnChar, ih h.2]
    have hcs : ¬ c = sep := fun e => h.1 e.symm
    simp [hcs]

theorem string_data_append (a b : String) : (a ++ b).data = a.data ++ b.data := rfl

theorem string_mk_data (s : String) : String.mk s.data = s := rfl

theorem decodeKey_key (r : ResourceReference) (h : wfRef r) : decodeKey (key r) = some r := by
  obtain ⟨g, v, k, n, m⟩ := r
  obtain ⟨hg1, hg2, hv1, hv2, hk1, hk2, hn1, hm1, hgn⟩ := h
  simp only at hg1 hg2 hv1 hv2 hk1 hk2 hn1 hm1 hgn
  have hgs1 : '|' ∉ (groupSegment ⟨g, v, k, n, m⟩).data := by
    rw [groupSegment]; split
    · decide
    · exact hg1
  have hgs2 : '_' ∉ (groupSegment ⟨g, v, k, n, m⟩).data := by
    rw [groupSegment]; split
    · decide
    · exact hg2
  have hdata : (key ⟨g, v, k, n, m⟩).data =
      ((groupSegment ⟨g, v, k, n, m⟩).data ++ '_' :: (v.data ++ '_' :: k.data)) ++
        '|' :: (n.data ++ '|' :: m.data) := by
    simp [key, string_data_append]
  have hA : '|' ∉ (groupSegment ⟨g, v, k, n, m⟩).data ++ '_' :: (v.data ++ '_' :: k.data) := by
    simp only [List.mem_append, List.mem_cons, not_or]
    refine ⟨hgs1, by decide, hv1, by decide, hk1⟩
  have houter : splitOnChar '|' (key ⟨g, v, k, n, m⟩).data =
      [(groupSegment ⟨g, v, k, n, m⟩).data ++ '_' :: (v.data ++ '_' :: k.data), n.data, m.data] := by
    rw [hdata, splitOnChar_append _ _ _ hA, splitOnChar_append _ _ _ hn1,
      splitOnChar_no_sep _ _ hm1]
  have hinner : splitOnChar '_'
      ((groupSegment ⟨g, v, k, n, m⟩).data ++ '_' :: (v.data ++ '_' :: k.data)) =
      [(groupSegment ⟨g, v, k, n, m⟩).data, v.data, k.data] := by
    rw [splitOnChar_append _ _ _ hgs2, splitOnChar_append _ _ _ hv2,
      splitOnChar_no_sep _ _ hk2]
  simp only [decodeKey, houter, hinner, string_mk_data, Option.some.injEq]
  by_cases hge : g = ""
  · subst hge
    simp [groupSegment]
  · simp [groupSegment, hge, hgn]

theorem decode_encode_eq (S : List ResourceReference) (h : ∀ r ∈ S, wfRef r) :
    decodeDoc (encodeDoc S) = some S := by
  induction S with
  | nil => rfl
  | cons r rest ih =>
    have hr : wfRef r := h r (by simp)
    have hrest := ih (fun x hx => h x (List.mem_cons_of_mem _ hx))
    simp only [encodeDoc, List.map_cons, decodeDoc, List.mapM_cons] at hrest ⊢
    rw [decodeKey_key r hr, hrest]
    rfl

/-! ## The reconciler model (Cmd Apply / Prune / Delete) -/

/-- Modelled from the spec: the persisted `InventoryRecord` of a generation,
two annotations on the inventory object: the inventory annotation (here the
key list of its document) and the opaque inventory-hash token. -/
structure InvRecord where
  current : List String
  hash : String
deriving DecidableEq, Repr

/-- Modelled from the spec: a `DeclaredResource`, the opaque document
(abstracted to its content string) plus its derived `ResourceReference`;
the batch's single inventory object is the one carrying the inventory
annotations (`inv` is `some`). -/
structure DeclaredResource where
  ref : ResourceReference
  content : String
  inv : Option InvRecord
deriving DecidableEq, Repr

/-- Modelled from the spec: one live object of the remote store, identified
by its reference, holding its content and, for the inventory object, the
persisted generation record. -/
structure LiveObject where
  ref : ResourceReference
  content : String
  inv : Option InvRecord
deriving DecidableEq, Repr

/-- The remote store: the list of live objects. -/
abbrev Store := List LiveObject

/-- A reference is live when some object of the store carries it. -/
def isLive (s : Store) (r : ResourceReference) : Prop :=
  ∃ o ∈ s, o.ref = r

instance (s : Store) (r : ResourceReference) : Decidable (isLive s r) := by
  unfold isLive
  exact List.decidableBEx _ s

/-- Modelled from the spec (section 4.2, Applier): create-or-update of one
declared resource.  Lookup by reference; if absent, create; if present,
update the object's content.  The persisted generation record on a live
inventory object is superseded only by Prune's persist step (spec sections
3 and 4.3, scenario 8.3), so an update leaves the live annotations in
place; a create installs the declared annotations. -/
def applyOne (s : Store) (d : DeclaredResource) : Store :=
  if isLive s d.ref then
    s.map fun o => if o.ref = d.ref then { o with content := d.content } else o
  else
    s ++ [{ ref := d.ref, content := d.content, inv := d.inv }]

/-- Modelled from the spec: `Apply` walks the ordered batch and
creates-or-updates every declared resource (happy path: the remote store
accepts every create/update). -/
def applyStore (batch : List DeclaredResource) (s : Store) : Store :=
  batch.foldl applyOne s

/-- Error taxonomy of the reconciler (spec section 7), as far as the model
reaches it. -/
inductive CmdError where
  | decodeError
deriving DecidableEq, Repr

/-- Modelled from the spec: `Apply(resources)` of the Cmd; reports success
with the updated store. -/
def applyCmd (batch : List DeclaredResource) (s : Store) : Except CmdError Store :=
  .ok (applyStore batch s)

/-- The batch's derived current set: the references of its non-inventory
resources (spec section 4.3, step 1). -/
def currentRefs (batch : List DeclaredResource) : List ResourceReference :=
  (batch.filter fun d => d.inv.isNone).map fun d => d.ref

/-- Deletion of one reference from the remote store; deleting an absent
reference leaves the store unchanged and is success (spec: NotFound is
benign for delete). -/
def removeRef (s : Store) (r : ResourceReference) : Store :=
  s.filter fun o => o.ref ≠ r

/-- Modelled from the spec (section 4.3, Pruner): (1) derive currentSet
from the batch's non-inventory references; (2) locate and fetch the live
inventory object (by the declared inventory object's reference) and decode
its record to obtain previousSet; (3) staleSet = previousSet − currentSet
by reference equality; (4) delete every stale reference, absent ones
included; (5) persist the new record {current := currentSet, hash := the
declared token} on the inventory object.  Batches without an inventory
object, or whose inventory object is not live, have nothing recorded to
prune and succeed unchanged; a malformed record is a DecodeError. -/
def staleRefs (prev current : List ResourceReference) : List ResourceReference :=
  prev.filter fun r => ¬ current.contains r

/-- Persisting a new generation record on the inventory object (spec
section 4.3, step 5): rewrite the inventory annotations of the live object
carrying the inventory reference. -/
def persistRecord (s : Store) (invRef : ResourceReference) (rec : InvRecord) : Store :=
  s.map fun o => if o.ref = invRef then { o with inv := some rec } else o

def pruneCmd (batch : List DeclaredResource) (s : Store) : Except CmdError Store :=
  match batch.find? fun d => d.inv.isSome with
  | none => .ok s
  | some d =>
    match d.inv with
    | none => .ok s
    | some drec =>
      match s.find? fun o => o.ref = d.ref with
      | none => .ok s
      | some liveInv =>
        match liveInv.inv with
        | none => .ok s
        | some rec0 =>
          match decodeDoc rec0.current with
          | none => .error .decodeError
          | some prev =>
            .ok (persistRecord
              ((staleRefs prev (currentRefs batch)).foldl removeRef s)
              d.ref
              { current := encodeDoc (currentRefs batch), hash := drec.hash })

/-- Modelled from the spec (section 4.4, Deleter): the deletion order of a
batch; instance-type resources before their defining resource, i.e. the
reverse of the declared apply order, then the inventory object. -/
def deleteOrder (batch : List DeclaredResource) : List ResourceReference :=
  ((batch.filter fun d => d.inv.isNone).map fun d => d.ref).reverse ++
    (batch.filter fun d => d.inv.isSome).map fun d => d.ref

/-- Modelled from the spec: `Delete(resources)` removes every reference of
the batch in deletion order and then the inventory object; deleting an
absent object is success, so the call always reports success. -/
def deleteCmd (batch : List DeclaredResource) (s : Store) : Except CmdError Store :=
  .ok ((deleteOrder batch).foldl removeRef s)

/-! ## Liveness lemmas for the store operations -/

theorem isLive_removeRef (s : Store) (r x : ResourceReference) :
    isLive (removeRef s r) x ↔ isLive s x ∧ x ≠ r := by
  simp only [isLive, removeRef, List.mem_filter, decide_not]
  constructor
  · rintro ⟨o, ⟨ho, hor⟩, rfl⟩
    simp only [Bool.not_eq_true', decide_eq_false_iff_not] at hor
    exact ⟨⟨o, ho, rfl⟩, hor⟩
  · rintro ⟨⟨o, ho, rfl⟩, hx⟩
    exact ⟨o, ⟨ho, by simpa using hx⟩, rfl⟩

theorem isLive_foldl_removeRef (l : List ResourceReference) (s : Store)
    (x : ResourceReference) :
    isLive (l.foldl removeRef s) x ↔ isLive s x ∧ x ∉ l := by
  induction l generalizing s with
  | nil => simp
  | cons a rest ih =>
    simp only [List.foldl_cons, ih, isLive_removeRef, List.mem_cons]
    constructor
    · rintro ⟨⟨h1, h2⟩, h3⟩
      exact ⟨h1, by simp [h2, h3]⟩
    · rintro ⟨h1, h2⟩
      simp only [not_or] at h2
      exact ⟨⟨h1, h2.1⟩, h2.2⟩

theorem removeRef_of_not_live (s : Store) (r : ResourceReference)
    (h : ¬ isLive s r) : removeRef s r = s := by
  apply List.filter_eq_self.mpr
  intro o ho
  simp only [decide_not, Bool.not_eq_true', decide_eq_false_iff_not]
  intro hor
  exact h ⟨o, ho, hor⟩

theorem foldl_removeRef_of_not_live (l : List ResourceReference) (s : Store)
    (h : ∀ r ∈ l, ¬ isLive s r) : l.foldl removeRef s = s := by
  induction l with
  | nil => rfl
  | cons a rest ih =>
    have ha : removeRef s a = s := removeRef_of_not_live s a (h a (by simp))
    simp only [List.foldl_cons, ha]
    exact ih fun r hr => h r (List.mem_cons_of_mem _ hr)

theorem isLive_map_content (s : Store) (f : LiveObject → LiveObject)
    (hf : ∀ o, (f o).ref = o.ref) (x : ResourceReference) :
    isLive (s.map f) x ↔ isLive s x := by
  simp only [isLive, List.mem_map]
  constructor
  · rintro ⟨o, ⟨o0, ho0, rfl⟩, hx⟩
    exact ⟨o0, ho0, by rw [← hf o0]; exact hx⟩
  · rintro ⟨o, ho, rfl⟩
    exact ⟨f o, ⟨o, ho, rfl⟩, hf o⟩

theorem mem_staleRefs (prev current : List ResourceReference) (r : ResourceReference) :
    r ∈ staleRefs prev current ↔ r ∈ prev ∧ r ∉ current := by
  simp [staleRefs, List.mem_filter]

theorem isLive_persistRecord (s : Store) (invRef : ResourceReference) (rec : InvRecord)
    (x : ResourceReference) : isLive (persistRecord s invRef rec) x ↔ isLive s x := by
  apply isLive_map_content
  intro o
  split <;> rfl

/-! ## Concrete resources of the TestCmd scenario -/

def cm1Ref : ResourceReference := ⟨"", "v1", "ConfigMap", "default", "cm1"⟩

def cm2Ref : ResourceReference := ⟨"", "v1", "ConfigMap", "default", "cm2"⟩

def invRef : ResourceReference := ⟨"", "v1", "ConfigMap", "default", "inventory"⟩

def cm1Decl : DeclaredResource := ⟨cm1Ref, "cm1doc", none⟩

def cm2Decl : DeclaredResource := ⟨cm2Ref, "cm2doc", none⟩

/-- The inventory object of the first generation, carrying the annotation
document observed in `setupResourcesV1`. -/
def invDecl1 : DeclaredResource :=
  ⟨invRef, "invdoc1", some ⟨["~G_v1_ConfigMap|default|cm1"], "1234567"⟩⟩

/-- The inventory object of the second generation, carrying the annotation
document observed in `setupResourcesV2`. -/
def invDecl2 : DeclaredResource :=
  ⟨invRef, "invdoc2", some ⟨["~G_v1_ConfigMap|default|cm2"], "7654321"⟩⟩

def batchV1 : List DeclaredResource := [cm1Decl, invDecl1]

def batchV2 : List DeclaredResource := [cm2Decl, invDecl2]

/-- The live store after Apply of generation one followed by Apply of
generation two, starting from an empty store. -/
def storeAfterV1V2 : Store := applyStore batchV2 (applyStore batchV1 [])

/-! ## Claim theorems: Prune -/

/-- C1: for previous set P decoded from the live inventory object and
current set C derived from the batch's non-inventory references, with no
concurrent mutation, Prune succeeds and deletes exactly the references in
P − C: a reference stays live iff it was live and is not in P − C. -/
theorem prune_set_difference (batch : List DeclaredResource) (s : Store)
    (d : DeclaredResource) (drec : InvRecord) (liveInv : LiveObject) (rec0 : InvRecord)
    (prev : List ResourceReference)
    (hfind : batch.find? (fun d => d.inv.isSome) = some d)
    (hdrec : d.inv = some drec)
    (hlive : s.find? (fun o => o.ref = d.ref) = some liveInv)
    (hrec : liveInv.inv = some rec0)
    (hdec : decodeDoc rec0.current = some prev) :
    ∃ s', pruneCmd batch s = .ok s' ∧
      ∀ r, isLive s' r ↔ (isLive s r ∧ ¬(r ∈ prev ∧ r ∉ currentRefs batch)) := by
  have hcompute : pruneCmd batch s = .ok (persistRecord
      ((staleRefs prev (currentRefs batch)).foldl removeRef s) d.ref
      { current := encodeDoc (currentRefs batch), hash := drec.hash }) := by
    simp only [pruneCmd, hfind, hdrec, hlive, hrec, hdec]
  refine ⟨_, hcompute, ?_⟩
  intro r
  rw [isLive_persistRecord, isLive_foldl_removeRef, mem_staleRefs]

/-- Witness for C1, on the TestCmd scenario: after Apply of generation
{cm1} followed by Apply of generation {cm2}, the live store holds cm1, cm2
and the inventory object, and Prune of the second batch deletes exactly
{cm1} = P − C. -/
theorem prune_set_difference_witness :
    (batchV2.find? (fun d => d.inv.isSome) = some invDecl2) ∧
    (invDecl2.inv = some ⟨["~G_v1_ConfigMap|default|cm2"], "7654321"⟩) ∧
    (storeAfterV1V2.find? (fun o => o.ref = invDecl2.ref) =
      some ⟨invRef, "invdoc2", some ⟨["~G_v1_ConfigMap|default|cm1"], "1234567"⟩⟩) ∧
    (decodeDoc ["~G_v1_ConfigMap|default|cm1"] = some [cm1Ref]) ∧
    isLive storeAfterV1V2 cm1Ref ∧ isLive storeAfterV1V2 cm2Ref ∧
    isLive storeAfterV1V2 invRef ∧
    (∃ s', pruneCmd batchV2 storeAfterV1V2 = .ok s' ∧
      ∀ r, isLive s' r ↔
        (isLive storeAfterV1V2 r ∧ ¬(r ∈ [cm1Ref] ∧ r ∉ currentRefs batchV2))) :=
  ⟨by decide, by decide, by decide, by decide, by decide, by decide, by decide,
    prune_set_difference batchV2 storeAfterV1V2 invDecl2
      ⟨["~G_v1_ConfigMap|default|cm2"], "7654321"⟩
      ⟨invRef, "invdoc2", some ⟨["~G_v1_ConfigMap|default|cm1"], "1234567"⟩⟩
      ⟨["~G_v1_ConfigMap|default|cm1"], "1234567"⟩
      [cm1Ref] (by decide) (by decide) (by decide) (by decide) (by decide)⟩

/-- C2: Prune never deletes a reference that is a member of the batch's
derived current set, even if it is also present in the previously persisted
set: any reference of currentSet that is live before a successful Prune is
still live after it. -/
theorem prune_never_deletes_current (batch : List DeclaredResource) (s s' : Store)
    (hok : pruneCmd batch s = .ok s') (r : ResourceReference)
    (hc : r ∈ currentRefs batch) (hl : isLive s r) : isLive s' r := by
  rw [pruneCmd] at hok
  split at hok
  · injection hok with h; subst h; exact hl
  · split at hok
    · injection hok with h; subst h; exact hl
    · split at hok
      · injection hok with h; subst h; exact hl
      · split at hok
        · injection hok with h; subst h; exact hl
        · split at hok
          · exact absurd hok (by simp)
          · injection hok with h
            subst h
            rw [isLive_persistRecord, isLive_foldl_removeRef]
            refine ⟨hl, ?_⟩
            rw [mem_staleRefs]
            rintro ⟨-, habs⟩
            exact habs hc

/-- Witness for C2, on the TestCmd scenario: Prune of the first batch right
after Apply of the first batch keeps cm1 (a member of the current set)
live. -/
theorem prune_never_deletes_current_witness :
    pruneCmd batchV1 (applyStore batchV1 []) = .ok (applyStore batchV1 []) ∧
    cm1Ref ∈ currentRefs batchV1 ∧
    isLive (applyStore batchV1 []) cm1Ref := by
  have hok : pruneCmd batchV1 (applyStore batchV1 []) = .ok (applyStore batchV1 []) := by
    rfl
  exact ⟨hok, by decide,
    prune_never_deletes_current batchV1 (applyStore batchV1 []) (applyStore batchV1 [])
      hok cm1Ref (by decide) (by decide)⟩

theorem ref_mem_deleteOrder (batch : List DeclaredResource) (d : DeclaredResource)
    (hd : d ∈ batch) : d.ref ∈ deleteOrder batch := by
  rw [deleteOrder, List.mem_append, List.mem_reverse]
  cases hinv : d.inv with
  | none =>
    left
    exact List.mem_map_of_mem _ (List.mem_filter.mpr ⟨hd, by simp [hinv]⟩)
  | some rec0 =>
    right
    exact List.mem_map_of_mem _ (List.mem_filter.mpr ⟨hd, by simp [hinv]⟩)

/-- C5: Delete succeeds and removes every reference of the batch, the
inventory object included, removes nothing else, and is idempotent:
deleting the batch again from the resulting store (where every reference
is already absent) is success and leaves the store unchanged. -/
theorem delete_removes_batch (batch : List DeclaredResource) (s : Store) :
    ∃ s', deleteCmd batch s = .ok s' ∧
      (∀ d ∈ batch, ¬ isLive s' d.ref) ∧
      (∀ r, r ∉ deleteOrder batch → (isLive s' r ↔ isLive s r)) ∧
      deleteCmd batch s' = .ok s' := by
  refine ⟨(deleteOrder batch).foldl removeRef s, rfl, ?_, ?_, ?_⟩
  · intro d hd
    rw [isLive_foldl_removeRef]
    rintro ⟨-, habs⟩
    exact habs (ref_mem_deleteOrder batch d hd)
  · intro r hr
    rw [isLive_foldl_removeRef]
    simp [hr]
  · rw [deleteCmd, foldl_removeRef_of_not_live]
    intro r hr
    rw [isLive_foldl_removeRef]
    rintro ⟨-, habs⟩
    exact habs hr

/-- C8: calling Apply, Prune or Delete with an empty batch of declared
resources returns success and leaves the remote store unchanged. -/
theorem empty_batch_noop (s : Store) :
    applyCmd [] s = .ok s ∧ pruneCmd [] s = .ok s ∧ deleteCmd [] s = .ok s :=
  ⟨rfl, rfl, rfl⟩

/-! ## Idempotence of Apply -/

/-- Every object of the store carrying the reference has the given
content. -/
def contentAt (s : Store) (x : ResourceReference) (c : String) : Prop :=
  ∀ o ∈ s, o.ref = x → o.content = c

theorem isLive_applyOne (s : Store) (d : DeclaredResource) (x : ResourceReference) :
    isLive (applyOne s d) x ↔ isLive s x ∨ x = d.ref := by
  rw [applyOne]
  split
  · rename_i hlive
    rw [isLive_map_content _ _ (fun o => by split <;> rfl)]
    constructor
    · exact Or.inl
    · rintro (h | rfl)
      · exact h
      · exact hlive
  · simp only [isLive, List.mem_append, List.mem_singleton]
    constructor
    · rintro ⟨o, ho | rfl, hx⟩
      · exact Or.inl ⟨o, ho, hx⟩
      · exact Or.inr hx.symm
    · rintro (⟨o, ho, hx⟩ | rfl)
      · exact ⟨o, Or.inl ho, hx⟩
      · exact ⟨_, Or.inr rfl, rfl⟩

theorem mem_applyOne_of_ne (s : Store) (d : DeclaredResource) (o : LiveObject)
    (ho : o ∈ applyOne s d) (hne : o.ref ≠ d.ref) : o ∈ s := by
  rw [applyOne] at ho
  split at ho
  · obtain ⟨o0, ho0, hfo⟩ := List.mem_map.mp ho
    by_cases h0 : o0.ref = d.ref
    · rw [if_pos h0] at hfo
      subst hfo
      exact absurd h0 hne
    · rw [if_neg h0] at hfo
      subst hfo
      exact ho0
  · rcases List.mem_append.mp ho with h | h
    · exact h
    · rw [List.mem_singleton] at h
      subst h
      exact absurd rfl hne

theorem contentAt_applyOne_self (s : Store) (d : DeclaredResource) :
    contentAt (applyOne s d) d.ref d.content := by
  intro o ho hor
  rw [applyOne] at ho
  split at ho
  · obtain ⟨o0, ho0, hfo⟩ := List.mem_map.mp ho
    by_cases h0 : o0.ref = d.ref
    · rw [if_pos h0] at hfo
      subst hfo
      rfl
    · rw [if_neg h0] at hfo
      subst hfo
      exact absurd hor h0
  · rename_i hdead
    rcases List.mem_append.mp ho with h | h
    · exact absurd ⟨o, h, hor⟩ hdead
    · rw [List.mem_singleton] at h
      subst h
      rfl

theorem contentAt_applyOne_ne (s : Store) (d : DeclaredResource) (x : ResourceReference)
    (c : String) (hne : x ≠ d.ref) (h : contentAt s x c) : contentAt (applyOne s d) x c :=
  fun o ho hor => h o (mem_applyOne_of_ne s d o ho (hor ▸ hne)) hor

theorem applyOne_eq_self (s : Store) (d : DeclaredResource) (hl : isLive s d.ref)
    (hc : contentAt s d.ref d.content) : applyOne s d = s := by
  rw [applyOne, if_pos hl]
  have h : ∀ o ∈ s, (if o.ref = d.ref then { o with content := d.content } else o) = o := by
    intro o ho
    by_cases h0 : o.ref = d.ref
    · rw [if_pos h0]
      have hco := hc o ho h0
      obtain ⟨ref, content, inv⟩ := o
      simp only at hco
      simp [hco]
    · rw [if_neg h0]
  rw [List.map_congr_left h]
  simp

theorem isLive_applyStore_mono (batch : List DeclaredResource) (s : Store)
    (x : ResourceReference) (h : isLive s x) : isLive (applyStore batch s) x := by
  induction batch generalizing s with
  | nil => exact h
  | cons d rest ih =>
    exact ih (applyOne s d) ((isLive_applyOne s d x).mpr (Or.inl h))

theorem contentAt_applyStore_ne (batch : List DeclaredResource) (s : Store)
    (x : ResourceReference) (c : String) (hne : ∀ e ∈ batch, e.ref ≠ x)
    (h : contentAt s x c) : contentAt (applyStore batch s) x c := by
  induction batch generalizing s with
  | nil => exact h
  | cons d rest ih =>
    refine ih (applyOne s d) (fun e he => hne e (List.mem_cons_of_mem _ he)) ?_
    exact contentAt_applyOne_ne s d x c (fun e => hne d (by simp) e.symm) h

theorem applyStore_twice (batch : List DeclaredResource)
    (hnd : (batch.map fun d => d.ref).Nodup) (s : Store) :
    applyStore batch (applyStore batch s) = applyStore batch s := by
  induction batch generalizing s with
  | nil => rfl
  | cons d rest ih =>
    rw [List.map_cons, List.nodup_cons] at hnd
    have hne : ∀ e ∈ rest, e.ref ≠ d.ref := by
      intro e he habs
      exact hnd.1 (habs ▸ List.mem_map_of_mem _ he)
    have hl1 : isLive (applyOne s d) d.ref := (isLive_applyOne s d d.ref).mpr (Or.inr rfl)
    have hc1 : contentAt (applyOne s d) d.ref d.content := contentAt_applyOne_self s d
    have hl2 : isLive (applyStore rest (applyOne s d)) d.ref :=
      isLive_applyStore_mono rest _ _ hl1
    have hc2 : contentAt (applyStore rest (applyOne s d)) d.ref d.content :=
      contentAt_applyStore_ne rest _ _ _ hne hc1
    show applyStore rest (applyOne (applyStore rest (applyOne s d)) d) =
      applyStore rest (applyOne s d)
    rw [applyOne_eq_self _ _ hl2 hc2]
    exact ih hnd.2 (applyOne s d)

/-! ## Idempotence of Prune and Delete -/

theorem find?_removeRef (s : Store) (r ρ : ResourceReference) (h : r ≠ ρ) :
    (removeRef s r).find? (fun o => o.ref = ρ) = s.find? (fun o => o.ref = ρ) := by
  induction s with
  | nil => rfl
  | cons a rest ih =>
    by_cases ha : a.ref = r
    · have hdrop : removeRef (a :: rest) r = removeRef rest r := by
        simp [removeRef, List.filter_cons, ha]
      have hpred : ¬ (a.ref = ρ) := fun e => h (ha ▸ e)
      rw [hdrop, ih, List.find?_cons_of_neg _ (by simpa using hpred)]
    · have hkeep : removeRef (a :: rest) r = a :: removeRef rest r := by
        simp [removeRef, List.filter_cons, ha]
      by_cases hp : a.ref = ρ
      · rw [hkeep, List.find?_cons_of_pos _ (by simpa using hp),
          List.find?_cons_of_pos _ (by simpa using hp)]
      · rw [hkeep, List.find?_cons_of_neg _ (by simpa using hp),
          List.find?_cons_of_neg _ (by simpa using hp), ih]

theorem find?_foldl_removeRef (l : List ResourceReference) (s : Store)
    (ρ : ResourceReference) (h : ρ ∉ l) :
    ((l.foldl removeRef s).find? fun o => o.ref = ρ) = s.find? (fun o => o.ref = ρ) := by
  induction l generalizing s with
  | nil => rfl
  | cons a rest ih =>
    simp only [List.mem_cons, not_or] at h
    rw [List.foldl_cons, ih _ h.2, find?_removeRef _ _ _ (fun e => h.1 e.symm)]

theorem find?_persistRecord (s : Store) (ρ : ResourceReference) (rec : InvRecord) :
    (persistRecord s ρ rec).find? (fun o => o.ref = ρ) =
      (s.find? fun o => o.ref = ρ).map fun o => { o with inv := some rec } := by
  induction s with
  | nil => rfl
  | cons a rest ih =>
    by_cases ha : a.ref = ρ
    · have hfa : (if a.ref = ρ then { a with inv := some rec } else a) =
          { a with inv := some rec } := if_pos ha
      rw [persistRecord, List.map_cons, hfa,
        List.find?_cons_of_pos _ (by simpa using ha),
        List.find?_cons_of_pos _ (by simpa using ha)]
      rfl
    · have hfa : (if a.ref = ρ then { a with inv := some rec } else a) = a := if_neg ha
      rw [persistRecord, List.map_cons, hfa,
        List.find?_cons_of_neg _ (by simpa using ha),
        List.find?_cons_of_neg _ (by simpa using ha)]
      exact ih

theorem staleRefs_self (current : List ResourceReference) : staleRefs current current = [] := by
  rw [staleRefs, List.filter_eq_nil_iff]
  intro a ha
  simp [ha]

theorem persistRecord_idem (s : Store) (ρ : ResourceReference) (rec : InvRecord) :
    persistRecord (persistRecord s ρ rec) ρ rec = persistRecord s ρ rec := by
  induction s with
  | nil => rfl
  | cons a rest ih =>
    rw [persistRecord, persistRecord, List.map_cons, List.map_cons]
    by_cases ha : a.ref = ρ
    · rw [if_pos ha, if_pos ha]
      exact congrArg _ (by simpa [persistRecord] using ih)
    · rw [if_neg ha, if_neg ha]
      exact congrArg _ (by simpa [persistRecord] using ih)

theorem delete_idem (batch : List DeclaredResource) (s s' : Store)
    (hok : deleteCmd batch s = .ok s') : deleteCmd batch s' = .ok s' := by
  injection hok with h
  subst h
  rw [deleteCmd, foldl_removeRef_of_not_live]
  intro r hr
  rw [isLive_foldl_removeRef]
  rintro ⟨-, habs⟩
  exact habs hr

theorem prune_idem (batch : List DeclaredResource) (s s' : Store)
    (hwf : ∀ r ∈ currentRefs batch, wfRef r)
    (hok : pruneCmd batch s = .ok s') : pruneCmd batch s' = .ok s' := by
  rw [pruneCmd] at hok
  split at hok
  · rename_i hfind
    injection hok with h
    subst h
    simp only [pruneCmd, hfind]
  · rename_i d hfind
    split at hok
    · rename_i hdinv
      injection hok with h
      subst h
      simp only [pruneCmd, hfind, hdinv]
    · rename_i drec hdinv
      split at hok
      · rename_i hlivefind
        injection hok with h
        subst h
        simp only [pruneCmd, hfind, hdinv, hlivefind]
      · rename_i liveInv hlivefind
        split at hok
        · rename_i hlinv
          injection hok with h
          subst h
          simp only [pruneCmd, hfind, hdinv, hlivefind, hlinv]
        · rename_i rec0 hlinv
          split at hok
          · exact absurd hok (by simp)
          · rename_i prev hdec
            injection hok with h
            subst h
            by_cases hmem : d.ref ∈ staleRefs prev (currentRefs batch)
            · have hnone : (persistRecord
                  ((staleRefs prev (currentRefs batch)).foldl removeRef s) d.ref
                  { current := encodeDoc (currentRefs batch), hash := drec.hash }).find?
                    (fun o => o.ref = d.ref) = none := by
                rw [List.find?_eq_none]
                intro o ho
                simp only [decide_eq_true_eq]
                intro habs
                have hl : isLive (persistRecord
                    ((staleRefs prev (currentRefs batch)).foldl removeRef s) d.ref
                    { current := encodeDoc (currentRefs batch), hash := drec.hash }) d.ref :=
                  ⟨o, ho, habs⟩
                rw [isLive_persistRecord, isLive_foldl_removeRef] at hl
                exact hl.2 hmem
              simp only [pruneCmd, hfind, hdinv, hnone]
            · have hfind1 : (((staleRefs prev (currentRefs batch)).foldl removeRef s).find?
                  fun o => o.ref = d.ref) = some liveInv :=
                (find?_foldl_removeRef _ _ _ hmem).trans hlivefind
              have hfind2 : ((persistRecord
                  ((staleRefs prev (currentRefs batch)).foldl removeRef s) d.ref
                  { current := encodeDoc (currentRefs batch), hash := drec.hash }).find?
                    fun o => o.ref = d.ref) =
                  some { liveInv with
                    inv := some { current := encodeDoc (currentRefs batch), hash := drec.hash } } := by
                rw [find?_persistRecord, hfind1]
                rfl
              simp only [pruneCmd, hfind, hdinv, hfind2, decode_encode_eq _ hwf,
                staleRefs_self, List.foldl_nil, persistRecord_idem]

/-- C7: re-running the reconciler with the same declared batch is safe:
applying the batch twice in succession from any remote state yields the
same final live state as applying it once, with success both times, and
re-running Prune or Delete on its own result is success leaving the store
unchanged. -/
theorem reconciler_idempotent (batch : List DeclaredResource) (s : Store)
    (hnd : (batch.map fun d => d.ref).Nodup)
    (hwf : ∀ d ∈ batch, wfRef d.ref) :
    (applyCmd batch s = .ok (applyStore batch s) ∧
      applyCmd batch (applyStore batch s) = .ok (applyStore batch s)) ∧
    (∀ s', pruneCmd batch s = .ok s' → pruneCmd batch s' = .ok s') ∧
    (∀ s', deleteCmd batch s = .ok s' → deleteCmd batch s' = .ok s') := by
  refine ⟨⟨rfl, ?_⟩, ?_, ?_⟩
  · rw [applyCmd, applyStore_twice batch hnd s]
  · intro s' hok
    refine prune_idem batch s s' ?_ hok
    intro r hr
    obtain ⟨d, hd, rfl⟩ := List.mem_map.mp hr
    exact hwf d (List.mem_filter.mp hd).1
  · intro s' hok
    exact delete_idem batch s s' hok

/-- Witness for C7, on the TestCmd scenario: the second batch has pairwise
distinct well-formed references, and the idempotence of Apply, Prune and
Delete holds for it on the store left by applying the first batch. -/
theorem reconciler_idempotent_witness :
    (batchV2.map fun d => d.ref).Nodup ∧ (∀ d ∈ batchV2, wfRef d.ref) ∧
    ((applyCmd batchV2 (applyStore batchV1 []) =
        .ok (applyStore batchV2 (applyStore batchV1 [])) ∧
      applyCmd batchV2 (applyStore batchV2 (applyStore batchV1 [])) =
        .ok (applyStore batchV2 (applyStore batchV1 []))) ∧
    (∀ s', pruneCmd batchV2 (applyStore batchV1 []) = .ok s' →
      pruneCmd batchV2 s' = .ok s') ∧
    (∀ s', deleteCmd batchV2 (applyStore batchV1 []) = .ok s' →
      deleteCmd batchV2 s' = .ok s')) :=
  ⟨by decide, by decide,
    reconciler_idempotent batchV2 (applyStore batchV1 []) (by decide) (by decide)⟩

/-! ## Claim theorems: the inventory codec -/

/-- C3: round-trip law of the inventory codec: decoding the annotation
document produced by encoding an InventorySet S yields S again, for every
set of references whose fields avoid the key separator characters (true of
every legal Kubernetes group/version/kind/namespace/name). -/
theorem inventory_roundtrip (S : List ResourceReference) (h : ∀ r ∈ S, wfRef r) :
    decodeDoc (encodeDoc S) = some S :=
  decode_encode_eq S h

/-- Witness for C3: the round trip on the two-element set {cm1, cm2}. -/
theorem inventory_roundtrip_witness :
    (∀ r ∈ [cm1Ref, cm2Ref], wfRef r) ∧
    decodeDoc (encodeDoc [cm1Ref, cm2Ref]) = some [cm1Ref, cm2Ref] :=
  ⟨by decide, inventory_roundtrip [cm1Ref, cm2Ref] (by decide)⟩

/-- C6: for every reference in the default/core group, the canonical key
is exactly the placeholder-prefixed string with the group segment omitted:
`~G_<version>_<kind>|<namespace>|<name>`. -/
theorem key_core_group (r : ResourceReference) (h : r.group = "") :
    key r = "~G_" ++ r.version ++ "_" ++ r.kind ++ "|" ++ r.ns ++ "|" ++ r.name := by
  obtain ⟨g, v, k, n, m⟩ := r
  simp only at h
  subst h
  rfl

/-- Witness for C6: the key of the v1 ConfigMap named cm1 in namespace
default is the exact string observed in the test annotation. -/
theorem key_core_group_witness :
    key ⟨"", "v1", "ConfigMap", "default", "cm1"⟩ = "~G_v1_ConfigMap|default|cm1" :=
  (key_core_group ⟨"", "v1", "ConfigMap", "default", "cm1"⟩ rfl).trans (by decide)

/-! ## The Applier's registration-race retry (TestCmdWithCRDs) -/

/-- Error classes of the Applier the retry loop distinguishes (spec
section 7): the transient type-not-registered class and the terminal
per-resource failure. -/
inductive ApplyErrKind where
  | typeNotRegistered
  | applyError
deriving DecidableEq, Repr

/-- Modelled from the spec: a resource of the registration-race model:
either a type-defining resource (e.g. a CustomResourceDefinition) whose
type becomes usable only after asynchronous registration, or an instance
of such a type. -/
structure RaceResource where
  isTypeDef : Bool
  typeName : String
  name : String
deriving DecidableEq, Repr

/-- Modelled from the spec: the remote store of the registration-race
model: the names of live objects, and the registered types with the number
of remaining backoff steps until each registration becomes observable
(asynchronous registration). -/
structure RaceStore where
  live : List String
  registered : List (String × Nat)
deriving DecidableEq, Repr

/-- Advancing the remote store by a number of backoff steps: every pending
registration gets that much closer to visible. -/
def tickStore (st : RaceStore) (n : Nat) : RaceStore :=
  { st with registered := st.registered.map fun p => (p.1, p.2 - n) }

/-- Whether a type's registration is observable now. -/
def typeVisible (st : RaceStore) (t : String) : Bool :=
  st.registered.any fun p => p.1 = t && p.2 = 0

/-- Modelled from the spec: one create attempt against the remote store;
`delay` is the store's asynchronous registration latency.  Creating a
type-defining resource succeeds and schedules the registration of its
type; creating an instance whose type is not yet observably registered
fails with the type-not-recognized error class. -/
def tryCreate (delay : Nat) (st : RaceStore) (r : RaceResource) : Except ApplyErrKind RaceStore :=
  if r.isTypeDef then
    .ok { live := st.live ++ [r.name], registered := st.registered ++ [(r.typeName, delay)] }
  else if typeVisible st r.typeName then
    .ok { st with live := st.live ++ [r.name] }
  else
    .error .typeNotRegistered

/-- Modelled from the spec (section 4.2): the Applier's internal retry with
bounded exponential backoff on the type-not-recognized error class; the
first argument of the recursion is the number of retries left, the second
the current backoff, doubled on each retry; after retries are exhausted
the failure becomes terminal. -/
def createWithRetry (delay : Nat) (r : RaceResource) :
    Nat → Nat → RaceStore → Except ApplyErrKind RaceStore
  | 0, _, st => tryCreate delay st r
  | a + 1, backoff, st =>
    match tryCreate delay st r with
    | .error .typeNotRegistered => createWithRetry delay r a (2 * backoff) (tickStore st backoff)
    | res => res

/-- The cap on retry attempts (spec: capped attempts within an overall
timeout). -/
def maxRetries : Nat := 5

/-- Modelled from the spec: Apply of an ordered batch in the
registration-race model, fail-fast on the first terminal error. -/
def applyRace (delay : Nat) : List RaceResource → RaceStore → Except ApplyErrKind RaceStore
  | [], st => .ok st
  | r :: rest, st =>
    match createWithRetry delay r maxRetries 1 st with
    | .ok st' => applyRace delay rest st'
    | .error e => .error e

theorem retry_budget_succ (a b : Nat) :
    b * (2 ^ (a + 1) - 1) = 2 * b * (2 ^ a - 1) + b := by
  have h1 : 1 ≤ 2 ^ a := Nat.one_le_two_pow
  obtain ⟨x, hx⟩ : ∃ x, 2 ^ a = x + 1 := ⟨2 ^ a - 1, by omega⟩
  have h2 : 2 ^ (a + 1) - 1 = 2 * x + 1 := by rw [pow_succ]; omega
  have h3 : 2 ^ a - 1 = x := by omega
  rw [h2, h3]
  ring

theorem createWithRetry_instance_ok (delay : Nat) (t nm : String) (a b d : Nat)
    (st : RaceStore) (hmem : (t, d) ∈ st.registered) (hd : d ≤ b * (2 ^ a - 1)) :
    ∃ st', createWithRetry delay ⟨false, t, nm⟩ a b st = .ok st' ∧
      st'.live = st.live ++ [nm] := by
  induction a generalizing b d st with
  | zero =>
    have hd0 : d = 0 := by simpa using hd
    subst hd0
    have hvis : typeVisible st t = true := by
      rw [typeVisible, List.any_eq_true]
      exact ⟨(t, 0), hmem, by simp⟩
    refine ⟨{ st with live := st.live ++ [nm] }, ?_, rfl⟩
    rw [createWithRetry, tryCreate]
    simp [hvis]
  | succ a ih =>
    cases hv : typeVisible st t with
    | true =>
      refine ⟨{ st with live := st.live ++ [nm] }, ?_, rfl⟩
      rw [createWithRetry]
      have htc : tryCreate delay st ⟨false, t, nm⟩ = .ok { st with live := st.live ++ [nm] } := by
        rw [tryCreate]
        simp [hv]
      rw [htc]
    | false =>
      have htc : tryCreate delay st ⟨false, t, nm⟩ = .error .typeNotRegistered := by
        rw [tryCreate]
        simp [hv]
      have hmem' : (t, d - b) ∈ (tickStore st b).registered :=
        List.mem_map.mpr ⟨(t, d), hmem, rfl⟩
      have hd' : d - b ≤ 2 * b * (2 ^ a - 1) := by
        rw [retry_budget_succ] at hd
        omega
      obtain ⟨st', hok, hlive⟩ := ih (2 * b) (d - b) (tickStore st b) hmem' hd'
      refine ⟨st', ?_, hlive⟩
      rw [createWithRetry, htc]
      exact hok

/-- C4: applying a type-defining resource and an instance of that type in
the same batch succeeds without external delay as long as the store's
registration latency is within the bounded backoff budget: an immediate
create of the instance would fail with the type-not-recognized error, but
Apply retries internally and returns success with both objects live. -/
theorem apply_registration_race (t n1 n2 : String) (delay : Nat)
    (hd : delay ≤ 2 ^ maxRetries - 1) :
    (0 < delay →
      tryCreate delay ⟨[n1], [(t, delay)]⟩ ⟨false, t, n2⟩ = .error .typeNotRegistered) ∧
    ∃ st', applyRace delay [⟨true, t, n1⟩, ⟨false, t, n2⟩] ⟨[], []⟩ = .ok st' ∧
      n1 ∈ st'.live ∧ n2 ∈ st'.live := by
  constructor
  · intro hpos
    have hvis : typeVisible ⟨[n1], [(t, delay)]⟩ t = false := by
      rw [typeVisible]
      simp
      omega
    rw [tryCreate]
    simp [hvis]
  · have h1 : createWithRetry delay ⟨true, t, n1⟩ maxRetries 1 ⟨[], []⟩ =
        .ok ⟨[n1], [(t, delay)]⟩ := rfl
    obtain ⟨st2, hok2, hlive2⟩ := createWithRetry_instance_ok delay t n2 maxRetries 1 delay
      ⟨[n1], [(t, delay)]⟩ (by simp) (by simpa using hd)
    refine ⟨st2, ?_, ?_, ?_⟩
    · simp only [applyRace, h1, hok2]
    · rw [hlive2]
      simp
    · rw [hlive2]
      simp

/-- Witness for C4, on the TestCmdWithCRDs scenario: the CronTab
CustomResourceDefinition and a CronTab instance applied in one batch, with
a registration latency of three backoff steps. -/
theorem apply_registration_race_witness :
    (3 ≤ 2 ^ maxRetries - 1) ∧
    ((0 < 3 → tryCreate 3 ⟨["crontabs.stable.example.com"], [("CronTab", 3)]⟩
        ⟨false, "CronTab", "my-new-cron-object"⟩ = .error .typeNotRegistered) ∧
    ∃ st', applyRace 3 [⟨true, "CronTab", "crontabs.stable.example.com"⟩,
        ⟨false, "CronTab", "my-new-cron-object"⟩] ⟨[], []⟩ = .ok st' ∧
      "crontabs.stable.example.com" ∈ st'.live ∧ "my-new-cron-object" ∈ st'.live) :=
  ⟨by decide,
    apply_registration_race "CronTab" "crontabs.stable.example.com" "my-new-cron-object" 3
      (by decide)⟩

/-! ## The ConfigProvider layer (resourceconfig and wirek8s, from source) -/

/-- A resource config (an unstructured object), abstracted to its
serialized document. -/
abbrev KObject := String

/-- Errors of the config-loading layer (ConfigError): the
kustomization.yaml rejection of `doFile` carrying the recommended
directory, a file-read failure, or a yaml unmarshal failure. -/
inductive ConfigError where
  | kustomizationYaml (dir : String)
  | readError (msg : String)
  | unmarshalError (msg : String)
deriving DecidableEq, Repr

/-- The `ConfigProvider` interface of `internal/pkg/resourceconfig`:
`IsSupported(path) bool` and `GetConfig(path) ([]runtime.Object, error)`. -/
structure ConfigProvider where
  IsSupported : String → Bool
  GetConfig : String → Except ConfigError (List KObject)

/-- The `KustomizeProvider` of `internal/pkg/resourceconfig`; its factories
(resmap, transformer, filesystem) and the kustomize build pipeline of its
`GetConfig` are external collaborators, abstracted into the `getConfig`
field. -/
structure KustomizeProvider where
  getConfig : String → Except ConfigError (List KObject)

/-- From source (`resourceconfig`): `func (p *KustomizeProvider)
IsSupported(path string) bool { return true }`. -/
def KustomizeProvider.IsSupported (_p : KustomizeProvider) (_path : String) : Bool :=
  true

/-- From source (`resourceconfig`): `GetConfig` of the KustomizeProvider
delegates to the kustomize build pipeline. -/
def KustomizeProvider.GetConfig (p : KustomizeProvider) (path : String) :
    Except ConfigError (List KObject) :=
  p.getConfig path

/-- From source (`wirek8s.NewConfigProvider`): the provider wired into the
command is a `KustomizeProvider`. -/
def NewConfigProvider (kp : KustomizeProvider) : ConfigProvider :=
  { IsSupported := kp.IsSupported, GetConfig := kp.GetConfig }

/-- Go's `filepath.Base` for slash-separated paths: empty path gives ".",
trailing slashes are dropped, an all-slash path gives "/", otherwise the
last path element. -/
def filepathBase (p : String) : String :=
  if p = "" then "."
  else
    let r := p.data.reverse.dropWhile fun c => c = '/'
    if r = [] then "/"
    else String.mk (r.takeWhile fun c => c ≠ '/').reverse

/-- Go's `filepath.Dir` for slash-separated paths: everything before the
last path element, "." when there is none, "/" for paths directly under
the root.  (`filepath.Dir` additionally runs `Clean` on the result, which
is the identity on the already-clean paths this development evaluates.) -/
def filepathDir (p : String) : String :=
  let r := p.data.reverse.dropWhile fun c => c ≠ '/'
  let r2 := r.dropWhile fun c => c = '/'
  if r2 = [] then (if r = [] then "." else "/")
  else String.mk r2.reverse

/-- From source (`wirek8s.doFile`): reading resource configs from a raw
file; a path whose base name is kustomization.yaml is rejected up front
with an error recommending the containing directory ("cannot run on
kustomization.yaml - use the directory instead"), before any file access;
otherwise the file is read, split on the yaml document separator and each
document unmarshalled.  The file system and the yaml unmarshaller are
passed in as functions. -/
def doFile (readFile : String → Except ConfigError String)
    (unmarshal : String → Except ConfigError KObject) (p : String) :
    Except ConfigError (List KObject) :=
  if filepathBase p = "kustomization.yaml" then
    .error (.kustomizationYaml (filepathDir p))
  else
    match readFile p with
    | .error e => .error e
    | .ok b => (b.splitOn "---").mapM unmarshal

/-- From source (`wirek8s.NewResourceConfig`): ask the provider first; when
the path is supported, return the provider's configs, otherwise fall back
to raw-file parsing. -/
def NewResourceConfig (readFile : String → Except ConfigError String)
    (unmarshal : String → Except ConfigError KObject)
    (rcp : String) (cp : ConfigProvider) : Except ConfigError (List KObject) :=
  if cp.IsSupported rcp then cp.GetConfig rcp
  else doFile readFile unmarshal rcp

/-- C9: `KustomizeProvider.IsSupported` returns true for every path, so
`NewResourceConfig` on the provider built by `NewConfigProvider` always
returns that provider's `GetConfig` result, whatever the file-reading
fallback would do: the raw-file path (`doFile`) is never taken. -/
theorem kustomize_provider_always_supported (kp : KustomizeProvider) (path : String)
    (readFile : String → Except ConfigError String)
    (unmarshal : String → Except ConfigError KObject) :
    kp.IsSupported path = true ∧
    NewResourceConfig readFile unmarshal path (NewConfigProvider kp) = kp.getConfig path :=
  ⟨rfl, rfl⟩

/-- C10: `doFile` on any path whose base name is kustomization.yaml
returns the error recommending the containing directory and no resource
configs, for every file reader and unmarshaller (the file is never
read). -/
theorem doFile_rejects_kustomization_yaml
    (readFile : String → Except ConfigError String)
    (unmarshal : String → Except ConfigError KObject) (p : String)
    (h : filepathBase p = "kustomization.yaml") :
    doFile readFile unmarshal p = .error (.kustomizationYaml (filepathDir p)) := by
  rw [doFile, if_pos h]

/-- Witness for C10, on the path written by `setupKustomize`: the base
name is kustomization.yaml, and `doFile` rejects it recommending the
containing temp directory, whatever the file reader returns. -/
theorem doFile_rejects_kustomization_yaml_witness :
    (filepathBase "/tmp/TestApplyStatus/kustomization.yaml" = "kustomization.yaml") ∧
    doFile (fun _ => .ok "unread") (fun s => .ok s)
      "/tmp/TestApplyStatus/kustomization.yaml" =
      .error (.kustomizationYaml "/tmp/TestApplyStatus") := by
  have hdir : filepathDir "/tmp/TestApplyStatus/kustomization.yaml" = "/tmp/TestApplyStatus" := by
    decide
  refine ⟨by decide, ?_⟩
  rw [doFile_rejects_kustomization_yaml (fun _ => .ok "unread") (fun s => .ok s)
    "/tmp/TestApplyStatus/kustomization.yaml" (by decide), hdir]
